import Mathlib

/-!
Verification of the statement catalog of the matrix-sdk-sql persistence
engine (`src/helpers.rs`, `src/lib.rs`).

The source is a catalog of parameterized SQL statements.  We give each
statement a shallow embedding: a table is a list of row structures (newest
row first), identifiers and payload blobs are `Nat`, timestamps are an
explicit `now : Nat` argument standing for the SQL `NOW()` /
`datetime(CURRENT_TIMESTAMP, 'localtime')` expression, and each statement
becomes a function on tables following the SQL text.  SQL `NULL` for a
nullable column is `Option.none`.  Uniqueness constraints implied by the
`ON CONFLICT` clauses appear as `Nodup` hypotheses where a theorem needs
them.  Column `is_partial` of the source schema is rendered as the field
`incomplete` here.
-/

set_option maxRecDepth 100000
set_option maxHeartbeats 4000000

namespace MatrixSdkSql

open List

/-- Opaque payload blob (the store never interprets payloads). -/
abbrev Blob := Nat

/-! ## Media cache (`statestore_media`) -/

/-- A row of the `statestore_media` table. -/
structure MediaRow where
  media_url : Nat
  media_data : Blob
  last_access : Nat
deriving DecidableEq

/-- The `statestore_media` table, newest row first. -/
abbrev MediaTable := List MediaRow

/-- The predicate `media_url = $1`. -/
def mediaMatch (url : Nat) (r : MediaRow) : Bool :=
  r.media_url == url

/-- `media_load_query`: `UPDATE statestore_media SET last_access = NOW()
WHERE media_url = $1 RETURNING media_data`.  Returns the `RETURNING`
payload list together with the updated table. -/
def media_load_query (url now : Nat) (t : MediaTable) :
    List Blob × MediaTable :=
  ((t.filter (mediaMatch url)).map MediaRow.media_data,
   t.map (fun r =>
     if mediaMatch url r then { r with last_access := now } else r))

/-- `media_insert_query_1`: `INSERT INTO statestore_media (media_url,
media_data, last_access) VALUES ($1, $2, NOW()) ON CONFLICT (media_url)
DO NOTHING`. -/
def media_insert_query_1 (url data now : Nat) (t : MediaTable) :
    MediaTable :=
  if t.any (mediaMatch url) then t
  else ⟨url, data, now⟩ :: t

/-- Insert a row into a list that is sorted by `last_access` descending. -/
def orderedInsertByAccessDesc (r : MediaRow) : MediaTable → MediaTable
  | [] => [r]
  | s :: l =>
    if s.last_access ≤ r.last_access then r :: s :: l
    else s :: orderedInsertByAccessDesc r l

/-- The `ORDER BY last_access DESC` sort of the trim statement. -/
def sortByAccessDesc : MediaTable → MediaTable
  | [] => []
  | r :: l => orderedInsertByAccessDesc r (sortByAccessDesc l)

/-- The url set `(SELECT media_url FROM statestore_media ORDER BY
last_access DESC LIMIT 100)`. -/
def keepUrls (t : MediaTable) : List Nat :=
  ((sortByAccessDesc t).take 100).map MediaRow.media_url

/-- `media_insert_query_2`: `DELETE FROM statestore_media WHERE media_url
NOT IN (SELECT media_url FROM statestore_media ORDER BY last_access DESC
LIMIT 100)`. -/
def media_insert_query_2 (t : MediaTable) : MediaTable :=
  t.filter (fun r => (keepUrls t).contains r.media_url)

/-- The two-statement media write protocol: `media_insert_query_1`
followed by `media_insert_query_2`. -/
def mediaWrite (url data now : Nat) (t : MediaTable) : MediaTable :=
  media_insert_query_2 (media_insert_query_1 url data now t)

/-- Sequentially insert 150 distinct media entries (url `i+1`, payload
`i+1`, at time `i+1`) into an empty media table. -/
def mediaScenario150 : MediaTable :=
  (List.range 150).foldl (fun t i => mediaWrite (i + 1) (i + 1) (i + 1) t) []

/-- Fill the cache with entries `E1..E100` (urls 1..100 at times 1..100),
read `E1` at time 101, then insert a new entry `E101` at time 102. -/
def mediaTouchScenario : MediaTable :=
  mediaWrite 101 1000 102
    (media_load_query 1 101
      ((List.range 100).foldl
        (fun t i => mediaWrite (i + 1) (i + 1) (i + 1) t) [])).2

/-! ### Lemmas about the trim statement's sort -/

theorem contains_iff_mem {a : Nat} {l : List Nat} : l.contains a = true ↔ a ∈ l := by
  simp [List.contains]

theorem perm_orderedInsertByAccessDesc (r : MediaRow) (l : MediaTable) :
    orderedInsertByAccessDesc r l ~ r :: l := by
  induction l with
  | nil => simp [orderedInsertByAccessDesc]
  | cons s l ih =>
    rw [orderedInsertByAccessDesc]
    split
    · exact List.Perm.refl _
    · exact (ih.cons s).trans (List.Perm.swap r s l)

theorem perm_sortByAccessDesc (l : MediaTable) : sortByAccessDesc l ~ l := by
  induction l with
  | nil => simp [sortByAccessDesc]
  | cons r l ih =>
    exact (perm_orderedInsertByAccessDesc r (sortByAccessDesc l)).trans (ih.cons r)

theorem pairwise_orderedInsertByAccessDesc (r : MediaRow) (l : MediaTable)
    (h : l.Pairwise (fun a b => b.last_access ≤ a.last_access)) :
    (orderedInsertByAccessDesc r l).Pairwise
      (fun a b => b.last_access ≤ a.last_access) := by
  induction l with
  | nil => simp [orderedInsertByAccessDesc]
  | cons s l ih =>
    rw [orderedInsertByAccessDesc]
    rw [List.pairwise_cons] at h
    split
    · rename_i hsr
      refine List.pairwise_cons.mpr ⟨?_, List.pairwise_cons.mpr h⟩
      intro x hx
      rcases List.mem_cons.mp hx with rfl | hm
      · exact hsr
      · exact (h.1 x hm).trans hsr
    · rename_i hsr
      refine List.pairwise_cons.mpr ⟨?_, ih h.2⟩
      intro x hx
      rcases List.mem_cons.mp
          ((perm_orderedInsertByAccessDesc r l).mem_iff.mp hx) with rfl | hm
      · exact le_of_lt (lt_of_not_le hsr)
      · exact h.1 x hm

theorem pairwise_sortByAccessDesc (l : MediaTable) :
    (sortByAccessDesc l).Pairwise (fun a b => b.last_access ≤ a.last_access) := by
  induction l with
  | nil => simp [sortByAccessDesc]
  | cons r l ih => exact pairwise_orderedInsertByAccessDesc r _ ih

/-! ### Lemmas about the media write protocol -/

theorem nodup_urls_media_insert_query_1 (url data now : Nat) (t : MediaTable)
    (h : (t.map MediaRow.media_url).Nodup) :
    ((media_insert_query_1 url data now t).map MediaRow.media_url).Nodup := by
  rw [media_insert_query_1]
  split
  · exact h
  · rename_i hany
    rw [List.map_cons, List.nodup_cons]
    refine ⟨?_, h⟩
    intro hmem
    rcases List.mem_map.mp hmem with ⟨r, hr, hurl⟩
    exact hany (List.any_eq_true.mpr ⟨r, hr, by simp [mediaMatch, hurl]⟩)

theorem length_media_insert_query_2_le (t : MediaTable)
    (h : (t.map MediaRow.media_url).Nodup) :
    (media_insert_query_2 t).length ≤ 100 := by
  have hsub : (media_insert_query_2 t).map MediaRow.media_url <+
      t.map MediaRow.media_url := (List.filter_sublist t).map _
  have hnd : ((media_insert_query_2 t).map MediaRow.media_url).Nodup :=
    hsub.nodup h
  have hss : ∀ x ∈ (media_insert_query_2 t).map MediaRow.media_url,
      x ∈ keepUrls t := by
    intro x hx
    rcases List.mem_map.mp hx with ⟨r, hr, hurl⟩
    have := (List.mem_filter.mp hr).2
    rw [contains_iff_mem] at this
    exact hurl ▸ this
  have hcard : ((media_insert_query_2 t).map MediaRow.media_url).length ≤
      (keepUrls t).length := by
    calc ((media_insert_query_2 t).map MediaRow.media_url).length
        = ((media_insert_query_2 t).map MediaRow.media_url).toFinset.card :=
          (List.toFinset_card_of_nodup hnd).symm
      _ ≤ (keepUrls t).toFinset.card := by
          apply Finset.card_le_card
          intro x hx
          exact List.mem_toFinset.mpr (hss x (List.mem_toFinset.mp hx))
      _ ≤ (keepUrls t).length := List.toFinset_card_le _
  have hk : (keepUrls t).length ≤ 100 := by
    rw [keepUrls, List.length_map, List.length_take]
    exact min_le_left _ _
  rw [List.length_map] at hcard
  exact hcard.trans hk

theorem media_trim_deletes_old (t : MediaTable) (r : MediaRow)
    (ha : (t.map MediaRow.last_access).Nodup)
    (hr : r ∈ t) (hdel : r ∉ media_insert_query_2 t) :
    100 ≤ (t.filter (fun x => decide (r.last_access < x.last_access))).length := by
  have hperm : sortByAccessDesc t ~ t := perm_sortByAccessDesc t
  have hkeep : r.media_url ∉ keepUrls t := by
    intro hmem
    exact hdel (List.mem_filter.mpr ⟨hr, contains_iff_mem.mpr hmem⟩)
  have hrs : r ∈ sortByAccessDesc t := hperm.mem_iff.mpr hr
  have hsplit := List.take_append_drop 100 (sortByAccessDesc t)
  have hrd : r ∈ (sortByAccessDesc t).drop 100 := by
    rcases List.mem_append.mp (hsplit ▸ hrs) with htk | hdr
    · exact absurd (List.mem_map_of_mem MediaRow.media_url htk) hkeep
    · exact hdr
  have hpw : ((sortByAccessDesc t).take 100 ++ (sortByAccessDesc t).drop 100).Pairwise
      (fun a b => b.last_access ≤ a.last_access) := by
    rw [hsplit]; exact pairwise_sortByAccessDesc t
  have h3 := (List.pairwise_append.mp hpw).2.2
  have hnd : ((sortByAccessDesc t).map MediaRow.last_access).Nodup :=
    ((hperm.map MediaRow.last_access).nodup_iff).mpr ha
  have hne : ((sortByAccessDesc t).take 100 ++ (sortByAccessDesc t).drop 100).Pairwise
      (fun a b => a.last_access ≠ b.last_access) := by
    rw [hsplit]
    exact (List.pairwise_map.mp hnd)
  have hne' := (List.pairwise_append.mp hne).2.2
  have h4 : ∀ x ∈ (sortByAccessDesc t).take 100, r.last_access < x.last_access := by
    intro x hx
    exact lt_of_le_of_ne (h3 x hx r hrd) (Ne.symm (hne' x hx r hrd))
  have h5 : 100 ≤ (sortByAccessDesc t).length := by
    have hlen : (sortByAccessDesc t).drop 100 ≠ [] := List.ne_nil_of_mem hrd
    have := List.length_pos.mpr hlen
    rw [List.length_drop] at this
    omega
  have h6 : ((sortByAccessDesc t).take 100).length = 100 := by
    rw [List.length_take]
    exact min_eq_left h5
  have hfp : (t.filter (fun x => decide (r.last_access < x.last_access))).length
      = ((sortByAccessDesc t).filter
          (fun x => decide (r.last_access < x.last_access))).length :=
    ((hperm.filter _).length_eq).symm
  rw [hfp]
  conv_rhs => rw [← hsplit]
  rw [List.filter_append, List.length_append]
  have h7 : ((sortByAccessDesc t).take 100).filter
      (fun x => decide (r.last_access < x.last_access))
      = (sortByAccessDesc t).take 100 := by
    apply List.filter_eq_self.mpr
    intro a hamem
    exact decide_eq_true (h4 a hamem)
  rw [h7, h6]
  exact Nat.le_add_right 100 _

/-! ### Closed forms for the concrete media scenarios -/

theorem take_range (m n : Nat) : (List.range n).take m = List.range (min m n) := by
  apply List.ext_getElem
  · simp
  · intro i h1 h2
    simp

theorem media_insert_query_1_fresh (t : MediaTable) (url data now : Nat)
    (hfresh : ∀ r ∈ t, r.media_url ≠ url) :
    media_insert_query_1 url data now t = ⟨url, data, now⟩ :: t := by
  rw [media_insert_query_1, if_neg]
  intro hany
  rcases List.any_eq_true.mp hany with ⟨r, hr, hm⟩
  rw [mediaMatch, beq_iff_eq] at hm
  exact hfresh r hr hm

theorem orderedInsert_of_le (r : MediaRow) (l : MediaTable)
    (h : ∀ x ∈ l, x.last_access ≤ r.last_access) :
    orderedInsertByAccessDesc r l = r :: l := by
  cases l with
  | nil => rfl
  | cons s l =>
    rw [orderedInsertByAccessDesc, if_pos (h s (List.mem_cons_self s l))]

theorem sort_of_sorted (l : MediaTable)
    (h : l.Pairwise (fun a b => b.last_access ≤ a.last_access)) :
    sortByAccessDesc l = l := by
  induction l with
  | nil => rfl
  | cons r l ih =>
    rw [List.pairwise_cons] at h
    rw [sortByAccessDesc, ih h.2, orderedInsert_of_le r l h.1]

theorem sort_snoc_big (A : MediaTable) (b : MediaRow)
    (hs : A.Pairwise (fun x y => y.last_access ≤ x.last_access))
    (hb : ∀ x ∈ A, x.last_access < b.last_access) :
    sortByAccessDesc (A ++ [b]) = b :: A := by
  induction A with
  | nil => rfl
  | cons a A ih =>
    rw [List.pairwise_cons] at hs
    rw [List.cons_append, sortByAccessDesc,
      ih hs.2 (fun x hx => hb x (List.mem_cons_of_mem a hx))]
    rw [orderedInsertByAccessDesc,
      if_neg (not_le.mpr (hb a (List.mem_cons_self a _)))]
    rw [orderedInsert_of_le a A hs.1]

theorem filter_contains_split (u v : MediaTable)
    (h : ((u ++ v).map MediaRow.media_url).Nodup) :
    (u ++ v).filter
        (fun r => (u.map MediaRow.media_url).contains r.media_url) = u := by
  rw [List.map_append, List.nodup_append] at h
  rw [List.filter_append]
  have h1 : u.filter
      (fun r => (u.map MediaRow.media_url).contains r.media_url) = u :=
    List.filter_eq_self.mpr (fun r hr =>
      contains_iff_mem.mpr (List.mem_map_of_mem _ hr))
  have h2 : v.filter
      (fun r => (u.map MediaRow.media_url).contains r.media_url) = [] :=
    List.filter_eq_nil_iff.mpr (fun r hr hc =>
      h.2.2 (contains_iff_mem.mp hc) (List.mem_map_of_mem _ hr))
  rw [h1, h2, List.append_nil]

theorem trim_of_sorted (t : MediaTable)
    (hu : (t.map MediaRow.media_url).Nodup)
    (hs : t.Pairwise (fun a b => b.last_access ≤ a.last_access)) :
    media_insert_query_2 t = t.take 100 := by
  have hr : media_insert_query_2 t
      = t.filter (fun r =>
          ((t.take 100).map MediaRow.media_url).contains r.media_url) := by
    rw [media_insert_query_2, keepUrls, sort_of_sorted t hs]
  obtain ⟨u, v, huv, hu100⟩ : ∃ u v, t = u ++ v ∧ u = t.take 100 :=
    ⟨t.take 100, t.drop 100, (List.take_append_drop 100 t).symm, rfl⟩
  rw [hr, ← hu100]
  conv_lhs => rw [huv]
  exact filter_contains_split u v (by rw [← huv]; exact hu)

theorem mediaWrite_fresh (t : MediaTable) (url data now : Nat)
    (hfresh : ∀ r ∈ t, r.media_url ≠ url)
    (hu : (t.map MediaRow.media_url).Nodup)
    (hs : t.Pairwise (fun a b => b.last_access ≤ a.last_access))
    (hnow : ∀ r ∈ t, r.last_access ≤ now) :
    mediaWrite url data now t = ((⟨url, data, now⟩ : MediaRow) :: t).take 100 := by
  rw [mediaWrite, media_insert_query_1_fresh t url data now hfresh]
  apply trim_of_sorted
  · rw [List.map_cons, List.nodup_cons]
    refine ⟨fun hmem => ?_, hu⟩
    rcases List.mem_map.mp hmem with ⟨r, hr, hurl⟩
    exact hfresh r hr hurl
  · rw [List.pairwise_cons]
    exact ⟨hnow, hs⟩

/-- The row inserted at step `v` of the fill scenarios. -/
def fillRow (v : Nat) : MediaRow := ⟨v, v, v⟩

theorem fillRow_mem_facts (k m : Nat) (x : MediaRow)
    (hx : x ∈ (List.range m).map (fun i => fillRow (k - i))) :
    x.media_url ≤ k ∧ x.media_url = x.last_access
      ∧ (m ≤ k → 0 < x.media_url) := by
  rcases List.mem_map.mp hx with ⟨i, hi, rfl⟩
  rw [List.mem_range] at hi
  refine ⟨?_, ?_, ?_⟩ <;> simp only [fillRow] <;> omega

theorem fill_nodup (k m : Nat) (hm : m ≤ k) :
    (((List.range m).map (fun i => fillRow (k - i))).map
      MediaRow.media_url).Nodup := by
  rw [List.map_map]
  refine (List.nodup_range m).map_on ?_
  intro i hi j hj hij
  rw [List.mem_range] at hi hj
  simp only [Function.comp, fillRow] at hij
  omega

theorem fill_sorted (k m : Nat) :
    ((List.range m).map (fun i => fillRow (k - i))).Pairwise
      (fun a b => b.last_access ≤ a.last_access) := by
  rw [List.pairwise_map]
  refine (List.pairwise_lt_range m).imp ?_
  intro i j hij
  simp only [fillRow]
  omega

theorem fillTable_eq (k : Nat) :
    (List.range k).foldl (fun t i => mediaWrite (i + 1) (i + 1) (i + 1) t) []
      = (List.range (min k 100)).map (fun i => fillRow (k - i)) := by
  induction k with
  | zero => rfl
  | succ k ih =>
    rw [List.range_succ, List.foldl_append, List.foldl_cons, List.foldl_nil, ih]
    rw [mediaWrite_fresh _ (k + 1) (k + 1) (k + 1)
      (fun r hr => by
        have := (fillRow_mem_facts k (min k 100) r hr).1
        omega)
      (fill_nodup k (min k 100) (min_le_left k 100))
      (fill_sorted k (min k 100))
      (fun r hr => by
        have h1 := (fillRow_mem_facts k (min k 100) r hr).1
        have h2 := (fillRow_mem_facts k (min k 100) r hr).2.1
        omega)]
    have hcons : (⟨k + 1, k + 1, k + 1⟩ : MediaRow)
          :: (List.range (min k 100)).map (fun i => fillRow (k - i))
        = (List.range (min k 100 + 1)).map (fun i => fillRow (k + 1 - i)) := by
      rw [List.range_succ_eq_map, List.map_cons, List.map_map]
      congr 1
      apply List.map_congr_left
      intro i _
      simp only [Function.comp, fillRow, Nat.succ_sub_succ]
    rw [hcons, ← List.map_take, take_range]
    have hmin : min 100 (min k 100 + 1) = min (k + 1) 100 := by omega
    rw [hmin]

theorem mediaScenario150_eq :
    mediaScenario150 = (List.range 100).map (fun i => fillRow (150 - i)) := by
  rw [mediaScenario150, fillTable_eq 150]
  have h : min 150 100 = 100 := by omega
  rw [h]

theorem mediaScenario150_map :
    mediaScenario150.map MediaRow.media_url
      = (List.range 100).map (fun i => 150 - i) := by
  rw [mediaScenario150_eq, List.map_map]
  apply List.map_congr_left
  intro i _
  simp [Function.comp, fillRow]

theorem mediaScenario150_length : mediaScenario150.length = 100 := by
  rw [mediaScenario150_eq, List.length_map, List.length_range]

/-! ### The touch-on-read scenario -/

theorem touch_loaded_eq :
    (media_load_query 1 101
        ((List.range 100).foldl
          (fun t i => mediaWrite (i + 1) (i + 1) (i + 1) t) [])).2
      = ((List.range 99).map (fun i => fillRow (100 - i)))
          ++ [⟨1, 1, 101⟩] := by
  rw [fillTable_eq 100]
  have h100 : min 100 100 = 100 := by omega
  rw [h100]
  show ((List.range 100).map (fun i => fillRow (100 - i))).map
      (fun r => if mediaMatch 1 r then { r with last_access := 101 } else r)
    = ((List.range 99).map (fun i => fillRow (100 - i))) ++ [⟨1, 1, 101⟩]
  exact rfl

theorem touchTable_sort :
    sortByAccessDesc
        ((⟨101, 1000, 102⟩ : MediaRow)
          :: (((List.range 99).map (fun i => fillRow (100 - i)))
              ++ [⟨1, 1, 101⟩]))
      = (⟨101, 1000, 102⟩ : MediaRow) :: (⟨1, 1, 101⟩ : MediaRow)
          :: (List.range 99).map (fun i => fillRow (100 - i)) := by
  rw [sortByAccessDesc]
  rw [sort_snoc_big _ _ (fill_sorted 100 99)
    (fun x hx => by
      have h1 := (fillRow_mem_facts 100 99 x hx).1
      have h2 := (fillRow_mem_facts 100 99 x hx).2.1
      show x.last_access < 101
      omega)]
  rw [orderedInsert_of_le]
  intro x hx
  show x.last_access ≤ 102
  rcases List.mem_cons.mp hx with rfl | hx2
  · decide
  · have h1 := (fillRow_mem_facts 100 99 x hx2).1
    have h2 := (fillRow_mem_facts 100 99 x hx2).2.1
    omega

theorem touch_keepUrls :
    keepUrls ((⟨101, 1000, 102⟩ : MediaRow)
        :: (((List.range 99).map (fun i => fillRow (100 - i)))
            ++ [⟨1, 1, 101⟩]))
      = 101 :: 1 :: (List.range 98).map (fun i => 100 - i) := by
  rw [keepUrls, touchTable_sort]
  have htake : ((⟨101, 1000, 102⟩ : MediaRow) :: (⟨1, 1, 101⟩ : MediaRow)
        :: (List.range 99).map (fun i => fillRow (100 - i))).take 100
      = (⟨101, 1000, 102⟩ : MediaRow) :: (⟨1, 1, 101⟩ : MediaRow)
        :: ((List.range 99).map (fun i => fillRow (100 - i))).take 98 := rfl
  rw [htake, ← List.map_take, take_range]
  have h98 : min 98 99 = 98 := by omega
  rw [h98]
  rw [List.map_cons, List.map_cons, List.map_map]
  rfl

theorem mem_touch_keep_iff (w : Nat) :
    (101 :: 1 :: (List.range 98).map (fun i => 100 - i)).contains w = true
      ↔ (w = 101 ∨ w = 1 ∨ (2 < w ∧ w ≤ 100)) := by
  rw [contains_iff_mem]
  simp only [List.mem_cons, List.mem_map, List.mem_range]
  constructor
  · rintro (rfl | rfl | ⟨i, hi, rfl⟩)
    · exact Or.inl rfl
    · exact Or.inr (Or.inl rfl)
    · exact Or.inr (Or.inr (by omega))
  · rintro (rfl | rfl | ⟨h1, h2⟩)
    · exact Or.inl rfl
    · exact Or.inr (Or.inl rfl)
    · exact Or.inr (Or.inr ⟨100 - w, by omega, by omega⟩)

theorem mediaTouchScenario_eq :
    mediaTouchScenario
      = (⟨101, 1000, 102⟩ : MediaRow)
          :: ((List.range 98).map (fun i => fillRow (100 - i))
              ++ [⟨1, 1, 101⟩]) := by
  rw [mediaTouchScenario, touch_loaded_eq, mediaWrite]
  rw [media_insert_query_1_fresh _ 101 1000 102
    (fun r hr => by
      rcases List.mem_append.mp hr with h1 | h2
      · have := (fillRow_mem_facts 100 99 r h1).1
        omega
      · rw [List.mem_singleton] at h2
        subst h2
        decide)]
  rw [media_insert_query_2, touch_keepUrls]
  rw [List.filter_cons_of_pos (by rw [mem_touch_keep_iff]; exact Or.inl rfl)]
  exact congrArg _ rfl

theorem mediaTouchScenario_contains :
    (mediaTouchScenario.map MediaRow.media_url).contains 1 = true := by
  rw [mediaTouchScenario_eq]
  rw [contains_iff_mem]
  rw [List.map_cons, List.map_append]
  refine List.mem_cons_of_mem _ (List.mem_append_right _ ?_)
  rw [List.map_cons, List.map_nil]
  exact List.mem_singleton.mpr rfl

theorem mediaTouchScenario_length : mediaTouchScenario.length = 100 := by
  rw [mediaTouchScenario_eq]
  rfl


/-- C1: after every execution of the media write protocol (insert statement
followed by trim statement) the media table has at most 100 rows; every row
the trim statement deletes has at least 100 rows more recently accessed than
it; and inserting 150 distinct media entries sequentially leaves exactly the
100 most recently inserted rows. -/
theorem media_cache_bound (t : MediaTable) (url data now : Nat)
    (hu : (t.map MediaRow.media_url).Nodup)
    (ha : (t.map MediaRow.last_access).Nodup) :
    (mediaWrite url data now t).length ≤ 100
    ∧ (∀ r ∈ t, r ∉ media_insert_query_2 t →
        100 ≤ (t.filter (fun x => decide (r.last_access < x.last_access))).length)
    ∧ mediaScenario150.length = 100
    ∧ mediaScenario150.map MediaRow.media_url
        = (List.range 100).map (fun i => 150 - i) := by
  refine ⟨?_, ?_, mediaScenario150_length, mediaScenario150_map⟩
  · exact length_media_insert_query_2_le _
      (nodup_urls_media_insert_query_1 url data now t hu)
  · exact fun r hr hdel => media_trim_deletes_old t r ha hr hdel

/-- Witness for C1 at a concrete two-row table. -/
theorem media_cache_bound_witness :
    (mediaWrite 3 7 30 [⟨1, 5, 10⟩, ⟨2, 6, 20⟩]).length ≤ 100 :=
  (media_cache_bound [⟨1, 5, 10⟩, ⟨2, 6, 20⟩] 3 7 30 (by decide) (by decide)).1

theorem filter_mediaMatch_eq_single (t : MediaTable) (url : Nat)
    (hu : (t.map MediaRow.media_url).Nodup) (r : MediaRow)
    (hr : r ∈ t) (hm : r.media_url = url) :
    t.filter (mediaMatch url) = [r] := by
  induction t with
  | nil => cases hr
  | cons a t ih =>
    rw [List.map_cons, List.nodup_cons] at hu
    rcases List.mem_cons.mp hr with he | hmem
    · subst he
      rw [List.filter_cons_of_pos (by simp [mediaMatch, hm])]
      congr 1
      apply List.filter_eq_nil_iff.mpr
      intro x hx hmx
      apply hu.1
      rw [mediaMatch, beq_iff_eq] at hmx
      exact List.mem_map.mpr ⟨x, hx, hmx.trans hm.symm⟩
    · rw [List.filter_cons_of_neg, ih hu.2 hmem]
      intro hma
      rw [mediaMatch, beq_iff_eq] at hma
      exact hu.1 (List.mem_map.mpr ⟨r, hmem, hm.trans hma.symm⟩)

/-- C3: a successful media read returns the stored payload, sets the matching
row's last-access to the current time while keeping its other columns, leaves
every other row untouched and deletes nothing; and in the fill-then-read-E1-
then-insert-E101 scenario the evicted entry is not E1. -/
theorem media_touch_on_read (t : MediaTable) (url now : Nat)
    (hu : (t.map MediaRow.media_url).Nodup) :
    (∀ r ∈ t, r.media_url = url →
        (media_load_query url now t).1 = [r.media_data]
        ∧ ({ media_url := r.media_url, media_data := r.media_data,
              last_access := now } : MediaRow) ∈ (media_load_query url now t).2)
    ∧ (∀ r ∈ t, r.media_url ≠ url → r ∈ (media_load_query url now t).2)
    ∧ (media_load_query url now t).2.length = t.length
    ∧ (mediaTouchScenario.map MediaRow.media_url).contains 1 = true
    ∧ mediaTouchScenario.length = 100 := by
  refine ⟨?_, ?_, ?_, mediaTouchScenario_contains, mediaTouchScenario_length⟩
  · intro r hr hm
    constructor
    · rw [media_load_query]
      rw [filter_mediaMatch_eq_single t url hu r hr hm]
      rfl
    · have hmem := List.mem_map_of_mem
        (fun r => if mediaMatch url r then { r with last_access := now } else r) hr
      have hbeta : (fun r => if mediaMatch url r then
          { r with last_access := now } else r) r
          = ({ media_url := r.media_url, media_data := r.media_data,
                last_access := now } : MediaRow) := by
        simp [mediaMatch, hm]
      rw [hbeta] at hmem
      exact hmem
  · intro r hr hm
    have hmem := List.mem_map_of_mem
      (fun r => if mediaMatch url r then { r with last_access := now } else r) hr
    have hbeta : (fun r => if mediaMatch url r then
        { r with last_access := now } else r) r = r := by
      simp [mediaMatch, beq_iff_eq, hm]
    rw [hbeta] at hmem
    exact hmem
  · exact List.length_map t _

/-- Witness for C3 at a concrete one-row table. -/
theorem media_touch_on_read_witness :
    (media_load_query 1 9 [⟨1, 2, 3⟩]).1 = [2] :=
  (((media_touch_on_read [⟨1, 2, 3⟩] 1 9 (by decide)).1) ⟨1, 2, 3⟩
    (by decide) rfl).1

/-- C9: the media insert statement leaves the table unchanged when a row with
the given media locator exists, and otherwise prepends a fresh row holding the
supplied payload with the current time as last-access. -/
theorem media_insert_or_ignore (t : MediaTable) (url data now : Nat) :
    ((∃ r ∈ t, r.media_url = url) → media_insert_query_1 url data now t = t)
    ∧ ((∀ r ∈ t, r.media_url ≠ url) →
        media_insert_query_1 url data now t
          = { media_url := url, media_data := data, last_access := now } :: t) := by
  constructor
  · intro h
    rcases h with ⟨r, hr, hm⟩
    rw [media_insert_query_1, if_pos]
    exact List.any_eq_true.mpr ⟨r, hr, by simp [mediaMatch, hm]⟩
  · intro h
    rw [media_insert_query_1, if_neg]
    intro hany
    rcases List.any_eq_true.mp hany with ⟨r, hr, hm⟩
    rw [mediaMatch, beq_iff_eq] at hm
    exact h r hr hm

/-- Witness for C9: both branches at concrete tables. -/
theorem media_insert_or_ignore_witness :
    media_insert_query_1 1 9 9 [⟨1, 2, 3⟩] = [⟨1, 2, 3⟩]
    ∧ media_insert_query_1 4 9 9 [⟨1, 2, 3⟩] = [⟨4, 9, 9⟩, ⟨1, 2, 3⟩] :=
  ⟨(media_insert_or_ignore [⟨1, 2, 3⟩] 1 9 9).1 ⟨⟨1, 2, 3⟩, by decide, rfl⟩,
   (media_insert_or_ignore [⟨1, 2, 3⟩] 4 9 9).2 (by decide)⟩

/-! ## Membership (`statestore_members`) -/

/-- A row of the `statestore_members` table.  The source's `is_partial`
column is the field `incomplete`; nullable columns are `Option`. -/
structure MemberRow where
  room_id : Nat
  user_id : Nat
  incomplete : Bool
  member_event : Option Blob
  displayname : Option Blob
  joined : Option Bool
  user_profile : Option Blob
deriving DecidableEq

/-- The `statestore_members` table, newest row first. -/
abbrev MemberTable := List MemberRow

/-- The conflict predicate `room_id = $1 AND user_id = $2`. -/
def memberMatch (room user : Nat) (r : MemberRow) : Bool :=
  r.room_id == room && r.user_id == user

/-- `member_upsert_query`: insert `(room_id, user_id, is_partial,
member_event, displayname, joined)`, `ON CONFLICT(room_id, user_id) DO
UPDATE SET is_partial = $3, member_event = $4, displayname = $5,
joined = $6`.  The `user_profile` column is not in the insert column list,
so a fresh row gets `NULL` there. -/
def member_upsert_query (room user : Nat) (p : Bool) (ev dn : Option Blob)
    (j : Option Bool) (t : MemberTable) : MemberTable :=
  if t.any (memberMatch room user) then
    t.map (fun r => if memberMatch room user r then
      { r with incomplete := p, member_event := ev, displayname := dn,
               joined := j } else r)
  else ⟨room, user, p, ev, dn, j, none⟩ :: t

/-- `member_profile_upsert_query`: insert `(room_id, user_id, is_partial,
user_profile)`, `ON CONFLICT(room_id, user_id) DO UPDATE SET
user_profile = $4`.  Columns absent from the insert list get `NULL` on the
insert path; on the conflict path only `user_profile` is set. -/
def member_profile_upsert_query (room user : Nat) (p : Bool)
    (profile : Option Blob) (t : MemberTable) : MemberTable :=
  if t.any (memberMatch room user) then
    t.map (fun r => if memberMatch room user r then
      { r with user_profile := profile } else r)
  else ⟨room, user, p, none, none, none, profile⟩ :: t

/-- `member_load_query`: `SELECT is_partial, member_event FROM
statestore_members WHERE room_id = $1 AND user_id = $2 AND member_event
IS NOT NULL`. -/
def member_load_query (room user : Nat) (t : MemberTable) :
    List (Bool × Option Blob) :=
  (t.filter (fun r => memberMatch room user r && r.member_event.isSome)).map
    (fun r => (r.incomplete, r.member_event))

/-- `profile_load_query`: `SELECT user_profile FROM statestore_members
WHERE room_id = $1 AND user_id = $2 AND user_profile IS NOT NULL`. -/
def profile_load_query (room user : Nat) (t : MemberTable) :
    List (Option Blob) :=
  (t.filter (fun r => memberMatch room user r && r.user_profile.isSome)).map
    MemberRow.user_profile

/-! ### Lemmas about the membership upserts -/

theorem any_member_upsert (room user : Nat) (p : Bool) (ev dn : Option Blob)
    (j : Option Bool) (t : MemberTable) :
    (member_upsert_query room user p ev dn j t).any (memberMatch room user)
      = true := by
  rw [member_upsert_query]
  split
  · rename_i hany
    rcases List.any_eq_true.mp hany with ⟨s, hs, hms⟩
    refine List.any_eq_true.mpr ⟨_, List.mem_map_of_mem _ hs, ?_⟩
    rw [if_pos hms]
    simpa [memberMatch] using hms
  · exact List.any_eq_true.mpr ⟨_, List.mem_cons_self _ _, by simp [memberMatch]⟩

theorem any_member_profile_upsert (room user : Nat) (p : Bool)
    (profile : Option Blob) (t : MemberTable) :
    (member_profile_upsert_query room user p profile t).any
      (memberMatch room user) = true := by
  rw [member_profile_upsert_query]
  split
  · rename_i hany
    rcases List.any_eq_true.mp hany with ⟨s, hs, hms⟩
    refine List.any_eq_true.mpr ⟨_, List.mem_map_of_mem _ hs, ?_⟩
    rw [if_pos hms]
    simpa [memberMatch] using hms
  · exact List.any_eq_true.mpr ⟨_, List.mem_cons_self _ _, by simp [memberMatch]⟩

theorem member_upsert_fields (room user : Nat) (p : Bool) (ev dn : Option Blob)
    (j : Option Bool) (t : MemberTable) (r : MemberRow)
    (hr : r ∈ member_upsert_query room user p ev dn j t)
    (hm : memberMatch room user r = true) :
    r.incomplete = p ∧ r.member_event = ev ∧ r.displayname = dn
      ∧ r.joined = j := by
  rw [member_upsert_query] at hr
  split at hr
  · rcases List.mem_map.mp hr with ⟨s, hs, hfs⟩
    by_cases hms : memberMatch room user s = true
    · rw [if_pos hms] at hfs
      subst hfs
      exact ⟨rfl, rfl, rfl, rfl⟩
    · rw [if_neg hms] at hfs
      subst hfs
      exact absurd hm hms
  · rename_i hany
    rcases List.mem_cons.mp hr with rfl | hmem
    · exact ⟨rfl, rfl, rfl, rfl⟩
    · rw [List.any_eq_true] at hany
      exact absurd ⟨r, hmem, hm⟩ hany

theorem member_profile_upsert_update (room user : Nat) (p : Bool)
    (profile : Option Blob) (t : MemberTable)
    (h : t.any (memberMatch room user) = true) (r : MemberRow)
    (hr : r ∈ member_profile_upsert_query room user p profile t)
    (hm : memberMatch room user r = true) :
    ∃ s ∈ t, memberMatch room user s = true
      ∧ r = { s with user_profile := profile } := by
  rw [member_profile_upsert_query, if_pos h] at hr
  rcases List.mem_map.mp hr with ⟨s, hs, hfs⟩
  by_cases hms : memberMatch room user s = true
  · rw [if_pos hms] at hfs
    exact ⟨s, hs, hms, hfs.symm⟩
  · rw [if_neg hms] at hfs
    subst hfs
    exact absurd hm hms

theorem member_load_map_profile (room user : Nat) (profile : Option Blob)
    (u : MemberTable) :
    member_load_query room user
        (u.map (fun r => if memberMatch room user r then
          { r with user_profile := profile } else r))
      = member_load_query room user u := by
  induction u with
  | nil => rfl
  | cons a u ih =>
    simp only [member_load_query] at ih ⊢
    rw [List.map_cons]
    by_cases hma : memberMatch room user a = true
    · rw [if_pos hma]
      rw [List.filter_cons, List.filter_cons]
      have hpred : (memberMatch room user { a with user_profile := profile }
          && ({ a with user_profile := profile } : MemberRow).member_event.isSome)
          = (memberMatch room user a && a.member_event.isSome) := rfl
      rw [hpred]
      by_cases hs : (memberMatch room user a && a.member_event.isSome) = true
      · rw [if_pos hs, if_pos hs, List.map_cons, List.map_cons, ih]
      · rw [if_neg hs, if_neg hs, ih]
    · rw [if_neg hma]
      rw [List.filter_cons, List.filter_cons]
      by_cases hs : (memberMatch room user a && a.member_event.isSome) = true
      · rw [if_pos hs, if_pos hs, List.map_cons, List.map_cons, ih]
      · rw [if_neg hs, if_neg hs, ih]

theorem profile_load_map_member (room user : Nat) (p : Bool)
    (ev dn : Option Blob) (j : Option Bool) (u : MemberTable) :
    profile_load_query room user
        (u.map (fun r => if memberMatch room user r then
          { r with incomplete := p, member_event := ev, displayname := dn,
                   joined := j } else r))
      = profile_load_query room user u := by
  induction u with
  | nil => rfl
  | cons a u ih =>
    simp only [profile_load_query] at ih ⊢
    rw [List.map_cons]
    by_cases hma : memberMatch room user a = true
    · rw [if_pos hma]
      rw [List.filter_cons, List.filter_cons]
      have hpred : (memberMatch room user
            ({ a with incomplete := p, member_event := ev, displayname := dn,
                      joined := j })
          && ({ a with incomplete := p, member_event := ev, displayname := dn,
                       joined := j } : MemberRow).user_profile.isSome)
          = (memberMatch room user a && a.user_profile.isSome) := rfl
      rw [hpred]
      by_cases hs : (memberMatch room user a && a.user_profile.isSome) = true
      · rw [if_pos hs, if_pos hs, List.map_cons, List.map_cons, ih]
      · rw [if_neg hs, if_neg hs, ih]
    · rw [if_neg hma]
      rw [List.filter_cons, List.filter_cons]
      by_cases hs : (memberMatch room user a && a.user_profile.isSome) = true
      · rw [if_pos hs, if_pos hs, List.map_cons, List.map_cons, ih]
      · rw [if_neg hs, if_neg hs, ih]

/-- C4: after a member-event upsert for (room, user), a profile upsert for the
same key only changes `user_profile`: the member-event read is unchanged, the
matching row keeps its member event, display name, joined and partial flags;
and symmetrically a member-event upsert leaves the profile read unchanged. -/
theorem member_write_path_isolation (t : MemberTable) (room user : Nat)
    (p p2 p3 : Bool) (ev dn ev2 dn2 : Option Blob) (j j2 : Option Bool)
    (profile : Option Blob) :
    member_load_query room user
        (member_profile_upsert_query room user p2 profile
          (member_upsert_query room user p ev dn j t))
      = member_load_query room user (member_upsert_query room user p ev dn j t)
    ∧ (∀ r ∈ member_profile_upsert_query room user p2 profile
          (member_upsert_query room user p ev dn j t),
        memberMatch room user r = true →
          r.member_event = ev ∧ r.displayname = dn ∧ r.joined = j
            ∧ r.incomplete = p ∧ r.user_profile = profile)
    ∧ profile_load_query room user
        (member_upsert_query room user p3 ev2 dn2 j2
          (member_profile_upsert_query room user p2 profile
            (member_upsert_query room user p ev dn j t)))
      = profile_load_query room user
          (member_profile_upsert_query room user p2 profile
            (member_upsert_query room user p ev dn j t)) := by
  refine ⟨?_, ?_, ?_⟩
  · rw [member_profile_upsert_query,
      if_pos (any_member_upsert room user p ev dn j t)]
    exact member_load_map_profile room user profile _
  · intro r hr hm
    rcases member_profile_upsert_update room user p2 profile _
        (any_member_upsert room user p ev dn j t) r hr hm with ⟨s, hs, hms, rfl⟩
    rcases member_upsert_fields room user p ev dn j t s hs hms with
      ⟨h1, h2, h3, h4⟩
    exact ⟨h2, h3, h4, h1, rfl⟩
  · rw [member_upsert_query,
      if_pos (any_member_profile_upsert room user p2 profile _)]
    exact profile_load_map_member room user p3 ev2 dn2 j2 _

/-- Witness for C4 on a one-row table. -/
theorem member_write_path_isolation_witness :
    member_load_query 1 2
        (member_profile_upsert_query 1 2 false (some 9)
          (member_upsert_query 1 2 false (some 5) (some 6) (some true)
            [⟨7, 8, true, none, none, none, none⟩]))
      = member_load_query 1 2
          (member_upsert_query 1 2 false (some 5) (some 6) (some true)
            [⟨7, 8, true, none, none, none, none⟩]) :=
  (member_write_path_isolation [⟨7, 8, true, none, none, none, none⟩]
    1 2 false false false (some 5) (some 6) none none (some true) none
    (some 9)).1

/-- C10: the member-event read filters on `member_event IS NOT NULL` and the
profile read on `user_profile IS NOT NULL`: a row created by the profile-only
upsert exists but is invisible to the member-event read, and a row created by
the member-event upsert exists but is invisible to the profile read. -/
theorem member_reads_filter_nullness (t : MemberTable) (room user : Nat)
    (p : Bool) (profile : Option Blob) (ev : Blob) (dn : Option Blob)
    (j : Option Bool) (h : ∀ r ∈ t, memberMatch room user r = false) :
    member_load_query room user
        (member_profile_upsert_query room user p profile t) = []
    ∧ (member_profile_upsert_query room user p profile t).any
        (memberMatch room user) = true
    ∧ profile_load_query room user
        (member_upsert_query room user p (some ev) dn j t) = []
    ∧ (member_upsert_query room user p (some ev) dn j t).any
        (memberMatch room user) = true := by
  have hany : t.any (memberMatch room user) = false := by
    rw [List.any_eq_false]
    intro r hr
    rw [h r hr]
    exact Bool.false_ne_true
  refine ⟨?_, any_member_profile_upsert room user p profile t, ?_,
    any_member_upsert room user p (some ev) dn j t⟩
  · rw [member_profile_upsert_query, hany]
    rw [if_neg Bool.false_ne_true]
    rw [member_load_query]
    rw [List.filter_cons_of_neg (by simp)]
    rw [List.filter_eq_nil_iff.mpr, List.map_nil]
    intro r hr
    rw [h r hr]
    simp
  · rw [member_upsert_query, hany]
    rw [if_neg Bool.false_ne_true]
    rw [profile_load_query]
    rw [List.filter_cons_of_neg (by simp)]
    rw [List.filter_eq_nil_iff.mpr, List.map_nil]
    intro r hr
    rw [h r hr]
    simp

/-- Witness for C10 on the empty table. -/
theorem member_reads_filter_nullness_witness :
    member_load_query 1 2 (member_profile_upsert_query 1 2 false (some 9) [])
      = [] :=
  (member_reads_filter_nullness [] 1 2 false (some 9) 5 none none
    (by intro r hr; cases hr)).1

/-! ## State events (`statestore_state`) -/

/-- A row of the `statestore_state` table (`is_partial` is `incomplete`). -/
structure StateRow where
  room_id : Nat
  event_type : Nat
  state_key : Nat
  incomplete : Bool
  state_event : Blob
  event_id : Nat
deriving DecidableEq

/-- The `statestore_state` table, newest row first. -/
abbrev StateTable := List StateRow

/-- The conflict predicate `room_id = $1 AND event_type = $2 AND
state_key = $3`. -/
def stateMatch (room etype skey : Nat) (r : StateRow) : Bool :=
  r.room_id == room && r.event_type == etype && r.state_key == skey

/-- `state_upsert_query`: insert `(room_id, event_type, state_key,
is_partial, state_event, event_id)`, `ON CONFLICT(room_id, event_type,
state_key) DO UPDATE SET is_partial = $4, state_event = $5,
event_id = $6`. -/
def state_upsert_query (room etype skey : Nat) (p : Bool) (ev eid : Nat)
    (t : StateTable) : StateTable :=
  if t.any (stateMatch room etype skey) then
    t.map (fun r => if stateMatch room etype skey r then
      { r with incomplete := p, state_event := ev, event_id := eid } else r)
  else ⟨room, etype, skey, p, ev, eid⟩ :: t

/-- `state_load_query`: `SELECT state_event FROM statestore_state WHERE
room_id = $1 AND event_type = $2 AND state_key = $3 AND
is_partial = '0'`. -/
def state_load_query (room etype skey : Nat) (t : StateTable) : List Blob :=
  (t.filter (fun r =>
    stateMatch room etype skey r && (StateRow.incomplete r == false))).map
    StateRow.state_event

/-- `states_load_query`: `SELECT state_event FROM statestore_state WHERE
room_id = $1 AND event_type = $2 AND is_partial = $3`. -/
def states_load_query (room etype : Nat) (p : Bool) (t : StateTable) :
    List Blob :=
  (t.filter (fun r =>
    r.room_id == room && r.event_type == etype
      && (StateRow.incomplete r == p))).map StateRow.state_event

/-- `state_redact_query`: `DELETE FROM statestore_state WHERE room_id = $1
AND event_id = $2`. -/
def state_redact_query (room eid : Nat) (t : StateTable) : StateTable :=
  t.filter (fun r => !(r.room_id == room && r.event_id == eid))

/-- Number of rows for the conflict key (room, type, state key). -/
def stateKeyCount (room etype skey : Nat) (t : StateTable) : Nat :=
  (t.filter (stateMatch room etype skey)).length

/-- Folding a sequence of state upserts for one conflict key over a table. -/
def stateWriteSeq (room etype skey : Nat) (writes : List (Bool × Nat × Nat))
    (t : StateTable) : StateTable :=
  writes.foldl
    (fun acc w => state_upsert_query room etype skey w.1 w.2.1 w.2.2 acc) t

/-! ### Lemmas about the state upsert -/

theorem any_state_upsert (room etype skey : Nat) (p : Bool) (ev eid : Nat)
    (t : StateTable) :
    (state_upsert_query room etype skey p ev eid t).any
      (stateMatch room etype skey) = true := by
  rw [state_upsert_query]
  split
  · rename_i hany
    rcases List.any_eq_true.mp hany with ⟨s, hs, hms⟩
    refine List.any_eq_true.mpr ⟨_, List.mem_map_of_mem _ hs, ?_⟩
    rw [if_pos hms]
    simpa [stateMatch] using hms
  · exact List.any_eq_true.mpr ⟨_, List.mem_cons_self _ _, by simp [stateMatch]⟩

theorem state_upsert_fields (room etype skey : Nat) (p : Bool) (ev eid : Nat)
    (t : StateTable) (r : StateRow)
    (hr : r ∈ state_upsert_query room etype skey p ev eid t)
    (hm : stateMatch room etype skey r = true) :
    r.incomplete = p ∧ r.state_event = ev ∧ r.event_id = eid := by
  rw [state_upsert_query] at hr
  split at hr
  · rcases List.mem_map.mp hr with ⟨s, hs, hfs⟩
    by_cases hms : stateMatch room etype skey s = true
    · rw [if_pos hms] at hfs
      subst hfs
      exact ⟨rfl, rfl, rfl⟩
    · rw [if_neg hms] at hfs
      subst hfs
      exact absurd hm hms
  · rename_i hany
    rcases List.mem_cons.mp hr with rfl | hmem
    · exact ⟨rfl, rfl, rfl⟩
    · rw [List.any_eq_true] at hany
      exact absurd ⟨r, hmem, hm⟩ hany

theorem stateMatch_update (room etype skey : Nat) (p : Bool) (ev eid : Nat)
    (r : StateRow) :
    stateMatch room etype skey
        (if stateMatch room etype skey r then
          { r with incomplete := p, state_event := ev, event_id := eid }
         else r)
      = stateMatch room etype skey r := by
  by_cases hms : stateMatch room etype skey r = true
  · rw [if_pos hms, hms]
    simpa [stateMatch] using hms
  · rw [if_neg hms]

theorem stateKeyCount_upsert (room etype skey : Nat) (p : Bool) (ev eid : Nat)
    (t : StateTable) (h : stateKeyCount room etype skey t ≤ 1) :
    stateKeyCount room etype skey
      (state_upsert_query room etype skey p ev eid t) = 1 := by
  rw [state_upsert_query]
  split
  · rename_i hany
    rw [stateKeyCount, List.filter_map]
    rw [List.length_map]
    have hcongr : List.filter
        ((stateMatch room etype skey) ∘ (fun r =>
          if stateMatch room etype skey r then
            { r with incomplete := p, state_event := ev, event_id := eid }
          else r)) t
        = List.filter (stateMatch room etype skey) t := by
      apply List.filter_congr
      intro r _
      exact stateMatch_update room etype skey p ev eid r
    rw [hcongr]
    rcases List.any_eq_true.mp hany with ⟨s, hs, hms⟩
    have hpos : 0 < (List.filter (stateMatch room etype skey) t).length :=
      List.length_pos.mpr
        (List.ne_nil_of_mem (List.mem_filter.mpr ⟨hs, hms⟩))
    rw [stateKeyCount] at h
    omega
  · rename_i hany
    rw [stateKeyCount, List.filter_cons_of_pos (by simp [stateMatch])]
    rw [List.filter_eq_nil_iff.mpr, List.length_cons, List.length_nil]
    intro r hr
    rw [List.any_eq_true] at hany
    exact fun hm => hany ⟨r, hr, hm⟩

theorem stateKeyCount_upsert_le (room etype skey : Nat) (p : Bool)
    (ev eid : Nat) (t : StateTable)
    (h : stateKeyCount room etype skey t ≤ 1) :
    stateKeyCount room etype skey
      (state_upsert_query room etype skey p ev eid t) ≤ 1 :=
  le_of_eq (stateKeyCount_upsert room etype skey p ev eid t h)

theorem stateKeyCount_writeSeq_le (room etype skey : Nat)
    (writes : List (Bool × Nat × Nat)) (t : StateTable)
    (h : stateKeyCount room etype skey t ≤ 1) :
    stateKeyCount room etype skey
      (stateWriteSeq room etype skey writes t) ≤ 1 := by
  induction writes generalizing t with
  | nil => exact h
  | cons w ws ih =>
    exact ih _ (stateKeyCount_upsert_le room etype skey w.1 w.2.1 w.2.2 t h)

theorem state_load_of_unique (room etype skey : Nat) (p : Bool) (ev : Nat)
    (u : StateTable) (hcount : stateKeyCount room etype skey u = 1)
    (hfields : ∀ r ∈ u, stateMatch room etype skey r = true →
      r.incomplete = p ∧ r.state_event = ev) :
    state_load_query room etype skey u = if p then [] else [ev] := by
  rcases List.length_eq_one.mp hcount with ⟨r0, hr0⟩
  have hr0mem : r0 ∈ List.filter (stateMatch room etype skey) u := by
    rw [hr0]
    exact List.mem_cons_self _ _
  have hr0u : r0 ∈ u := (List.mem_filter.mp hr0mem).1
  have hr0m : stateMatch room etype skey r0 = true :=
    (List.mem_filter.mp hr0mem).2
  rcases hfields r0 hr0u hr0m with ⟨hp, hev⟩
  have hload : state_load_query room etype skey u
      = (List.filter (fun r => StateRow.incomplete r == false)
          (List.filter (stateMatch room etype skey) u)).map
          StateRow.state_event := by
    rw [state_load_query, List.filter_filter]
    congr 1
    apply List.filter_congr
    intro r _
    rw [Bool.and_comm]
  rw [hload, hr0, List.filter_cons]
  cases p with
  | false =>
    rw [if_pos (by rw [hp]; rfl), if_neg Bool.false_ne_true]
    rw [List.filter_nil, List.map_cons, List.map_nil, hev]
  | true =>
    rw [if_neg (by rw [hp]; simp), if_pos rfl]
    rw [List.filter_nil, List.map_nil]

/-- C5: the state upsert resolves conflicts on exactly (room id, event type,
state key): any nonempty sequence of upserts sharing that key, with arbitrary
(in particular pairwise distinct) event ids, leaves exactly one row for the
key, that row holds the last write's values, and the point lookup returns the
most recent payload (nothing when the most recent write was partial). -/
theorem state_conflict_key (t : StateTable) (room etype skey : Nat)
    (writes ws : List (Bool × Nat × Nat)) (w : Bool × Nat × Nat)
    (hsplit : writes = ws ++ [w])
    (h : stateKeyCount room etype skey t ≤ 1) :
    stateKeyCount room etype skey
        (stateWriteSeq room etype skey writes t) = 1
    ∧ (∀ r ∈ stateWriteSeq room etype skey writes t,
        stateMatch room etype skey r = true →
          r.incomplete = w.1 ∧ r.state_event = w.2.1 ∧ r.event_id = w.2.2)
    ∧ state_load_query room etype skey
          (stateWriteSeq room etype skey writes t)
        = (if w.1 then [] else [w.2.1]) := by
  subst hsplit
  have hfold : stateWriteSeq room etype skey (ws ++ [w]) t
      = state_upsert_query room etype skey w.1 w.2.1 w.2.2
          (stateWriteSeq room etype skey ws t) := by
    rw [stateWriteSeq, List.foldl_append]
    rfl
  have hle : stateKeyCount room etype skey
      (stateWriteSeq room etype skey ws t) ≤ 1 :=
    stateKeyCount_writeSeq_le room etype skey ws t h
  have hcount : stateKeyCount room etype skey
      (stateWriteSeq room etype skey (ws ++ [w]) t) = 1 := by
    rw [hfold]
    exact stateKeyCount_upsert room etype skey w.1 w.2.1 w.2.2 _ hle
  have hfields : ∀ r ∈ stateWriteSeq room etype skey (ws ++ [w]) t,
      stateMatch room etype skey r = true →
        r.incomplete = w.1 ∧ r.state_event = w.2.1 ∧ r.event_id = w.2.2 := by
    intro r hr hm
    rw [hfold] at hr
    exact state_upsert_fields room etype skey w.1 w.2.1 w.2.2 _ r hr hm
  exact ⟨hcount, hfields,
    state_load_of_unique room etype skey w.1 w.2.1 _ hcount
      (fun r hr hm => ⟨(hfields r hr hm).1, (hfields r hr hm).2.1⟩)⟩

/-- Witness for C5: two writes to the same key with different event ids leave
one row holding the second write's payload. -/
theorem state_conflict_key_witness :
    stateKeyCount 1 2 3 (stateWriteSeq 1 2 3
        [(false, 10, 100), (false, 20, 200)] []) = 1 :=
  (state_conflict_key [] 1 2 3 [(false, 10, 100), (false, 20, 200)]
    [(false, 10, 100)] (false, 20, 200) rfl (by decide)).1

/-- C6: a state event stored with partial=true is excluded from the point
lookup, but included in the bulk state-by-type lookup called with partial=true
as the filter parameter; the bulk lookup with partial=false only ever returns
payloads of non-partial rows. -/
theorem state_partiality_filter (t : StateTable) (room etype skey ev eid : Nat) :
    state_load_query room etype skey
        (state_upsert_query room etype skey true ev eid t) = []
    ∧ ev ∈ states_load_query room etype true
        (state_upsert_query room etype skey true ev eid t)
    ∧ ∀ u : StateTable, ∀ x ∈ states_load_query room etype false u,
        ∃ r ∈ u, r.incomplete = false ∧ r.state_event = x := by
  refine ⟨?_, ?_, ?_⟩
  · rw [state_load_query]
    rw [List.filter_eq_nil_iff.mpr, List.map_nil]
    intro r hr
    by_cases hm : stateMatch room etype skey r = true
    · have := (state_upsert_fields room etype skey true ev eid t r hr hm).1
      simp [hm, this]
    · simp [hm]
  · rcases List.any_eq_true.mp
        (any_state_upsert room etype skey true ev eid t) with ⟨r, hr, hm⟩
    rcases state_upsert_fields room etype skey true ev eid t r hr hm with
      ⟨hp, hev, _⟩
    have hm2 : r.room_id = room ∧ r.event_type = etype ∧ r.state_key = skey := by
      simpa [stateMatch, and_assoc] using hm
    rw [states_load_query]
    refine List.mem_map.mpr ⟨r, List.mem_filter.mpr ⟨hr, ?_⟩, hev⟩
    simp [hm2.1, hm2.2.1, hp]
  · intro u x hx
    rcases List.mem_map.mp hx with ⟨r, hr, hev⟩
    have hpred := (List.mem_filter.mp hr).2
    rw [Bool.and_eq_true, Bool.and_eq_true] at hpred
    refine ⟨r, (List.mem_filter.mp hr).1, ?_, hev⟩
    have := hpred.2
    rwa [beq_iff_eq] at this

/-- Witness for C6 (third conjunct applied on a one-row table). -/
theorem state_partiality_filter_witness :
    state_load_query 1 2 3 (state_upsert_query 1 2 3 true 7 8 []) = [] :=
  (state_partiality_filter [] 1 2 3 7 8).1

/-- C7: the redaction statement deletes a stored row exactly when both its
room id and its event id equal the given values; every surviving row is kept
unmodified (the result is a sublist of the table). -/
theorem state_redaction (t : StateTable) (room eid : Nat) :
    (∀ r ∈ t, (r ∈ state_redact_query room eid t
        ↔ ¬(r.room_id = room ∧ r.event_id = eid)))
    ∧ state_redact_query room eid t <+ t := by
  refine ⟨?_, List.filter_sublist t⟩
  intro r hr
  rw [state_redact_query, List.mem_filter]
  simp only [hr, true_and, Bool.not_eq_true', Bool.and_eq_false_iff,
    beq_eq_false_iff_ne, ne_eq]
  tauto

/-- Witness for C7: a row whose event id differs from the given one stays. -/
theorem state_redaction_witness :
    ((⟨1, 2, 3, false, 7, 8⟩ : StateRow)
        ∈ state_redact_query 1 9 [⟨1, 2, 3, false, 7, 8⟩])
    ∧ ¬((⟨1, 2, 3, false, 7, 8⟩ : StateRow)
        ∈ state_redact_query 1 8 [⟨1, 2, 3, false, 7, 8⟩]) := by
  constructor
  · exact ((state_redaction [⟨1, 2, 3, false, 7, 8⟩] 1 9).1 _
      (List.mem_cons_self _ _)).mpr (by decide)
  · intro hmem
    exact ((state_redaction [⟨1, 2, 3, false, 7, 8⟩] 1 8).1 _
      (List.mem_cons_self _ _)).mp hmem ⟨rfl, rfl⟩

/-! ## Inbound group sessions (`cryptostore_inbound_group_session`) -/

/-- A row of the `cryptostore_inbound_group_session` table. -/
structure InboundGroupSessionRow where
  room_id : Nat
  sender_key : Nat
  session_id : Nat
  session_data : Blob
deriving DecidableEq

/-- The `cryptostore_inbound_group_session` table, newest row first. -/
abbrev InboundGroupSessionTable := List InboundGroupSessionRow

/-- The conflict predicate `(room_id, sender_key, session_id)`. -/
def igsMatch (room sender session : Nat) (r : InboundGroupSessionRow) : Bool :=
  r.room_id == room && r.sender_key == sender && r.session_id == session

/-- `inbound_group_session_upsert_query`: insert `(room_id, sender_key,
session_id, session_data)`, `ON CONFLICT (room_id, sender_key, session_id)
DO UPDATE SET session_data = $4`. -/
def inbound_group_session_upsert_query (room sender session : Nat)
    (data : Blob) (t : InboundGroupSessionTable) : InboundGroupSessionTable :=
  if t.any (igsMatch room sender session) then
    t.map (fun r => if igsMatch room sender session r then
      { r with session_data := data } else r)
  else ⟨room, sender, session, data⟩ :: t

/-- `inbound_group_session_fetch_query`: `SELECT session_data FROM
cryptostore_inbound_group_session WHERE room_id = $1 AND session_id = $2`.
The statement uses only two placeholders although its doc comment lists
three arguments (`$1` hashed room id, `$2` hashed sender key, `$3` hashed
session id); `b1` and `b2` are whatever the caller binds. -/
def inbound_group_session_fetch_query (b1 b2 : Nat)
    (t : InboundGroupSessionTable) : List Blob :=
  (t.filter (fun r => r.room_id == b1 && r.session_id == b2)).map
    InboundGroupSessionRow.session_data

/-- C2 (counterexample to the round trip on the code): the fetch statement
does not filter on the sender key.  Binding the three documented arguments in
order makes the second placeholder the hashed sender key, which the statement
compares against `session_id`, so fetching the freshly upserted session
(room 1, sender key 2, session id 3, payload 4) returns nothing; and even
under the charitable binding (room id, session id) the lookup for the triple
(1, *, 3) returns the payloads of two distinct sender keys at once. -/
theorem inbound_group_session_fetch_mismatch :
    inbound_group_session_fetch_query 1 2
      (inbound_group_session_upsert_query 1 2 3 4 []) = []
    ∧ inbound_group_session_fetch_query 1 3
      (inbound_group_session_upsert_query 1 9 3 7
        (inbound_group_session_upsert_query 1 2 3 4 [])) = [7, 4] := by
  exact ⟨rfl, rfl⟩

/-- For the record: the statement as written satisfies a round trip only for
the pair (room id, session id) actually present in its `WHERE` clause, with
the sender key ignored. -/
theorem inbound_group_session_pair_roundtrip (t : InboundGroupSessionTable)
    (room sender session : Nat) (data : Blob)
    (h : ∀ r ∈ t, ¬(r.room_id = room ∧ r.session_id = session)) :
    inbound_group_session_fetch_query room session
      (inbound_group_session_upsert_query room sender session data t)
      = [data] := by
  have hany : t.any (igsMatch room sender session) = false := by
    rw [List.any_eq_false]
    intro r hr hm
    have : r.room_id = room ∧ r.sender_key = sender ∧ r.session_id = session := by
      simpa [igsMatch, and_assoc] using hm
    exact h r hr ⟨this.1, this.2.2⟩
  rw [inbound_group_session_upsert_query, hany, if_neg Bool.false_ne_true]
  rw [inbound_group_session_fetch_query]
  rw [List.filter_cons_of_pos (by simp)]
  rw [List.filter_eq_nil_iff.mpr, List.map_cons, List.map_nil]
  intro r hr hm
  rw [Bool.and_eq_true, beq_iff_eq, beq_iff_eq] at hm
  exact h r hr hm

/-- Witness for the pair round trip on the empty table. -/
theorem inbound_group_session_pair_roundtrip_witness :
    inbound_group_session_fetch_query 1 3
      (inbound_group_session_upsert_query 1 2 3 4 []) = [4] :=
  inbound_group_session_pair_roundtrip [] 1 2 3 4 (by intro r hr; cases hr)

/-! ## Migrations (`get_migrator`, `StateStore::new`) -/

/-- A migrator as built by the `get_migrator` implementations: an ordered
migration list (abstracted as versions) plus the `ignore_missing` flag. -/
structure Migrator where
  migrations : List Nat
  ignore_missing : Bool
deriving DecidableEq

/-- `<Postgres as SupportedDatabase>::get_migrator`: the migration list comes
from `sqlx::migrate!("./migrations/postgres")` (migration files outside
`src/`, abstracted as the parameter `migs`); `ignore_missing` is `true`. -/
def postgres_get_migrator (migs : List Nat) : Migrator :=
  { migrations := migs, ignore_missing := true }

/-- `<Sqlite as SupportedDatabase>::get_migrator`: the migration list comes
from `sqlx::migrate!("./migrations/sqlite")`; `ignore_missing` is `true`. -/
def sqlite_get_migrator (migs : List Nat) : Migrator :=
  { migrations := migs, ignore_missing := true }

/-- Modelled from the spec: `sqlx::migrate::Migrator::run` (the migration
runner invoked by `StateStore::new`, outside this repository's `src/`)
"applies any [migrations] not yet recorded as applied, recording each as it
succeeds" and "must tolerate a persisted migration history containing entries
absent from the current binary's list — unknown recorded migrations are
treated as already-satisfied, not as errors" exactly when `ignore_missing`
is set; with the flag clear a recorded-but-unknown migration is an error.
`applied` is the recorded migration history; the result is the new history. -/
def Migrator.run (m : Migrator) (applied : List Nat) :
    Except String (List Nat) :=
  if !m.ignore_missing && applied.any (fun v => !m.migrations.contains v) then
    Except.error "migration was previously applied but is missing in the resolved migrations"
  else
    Except.ok (applied ++ m.migrations.filter (fun v => !applied.contains v))

/-- `StateStore::new`: runs the dialect's migrator against the pool and
propagates its error; construction succeeds exactly when the run does. -/
def StateStore.new (m : Migrator) (applied : List Nat) :
    Except String (List Nat) :=
  m.run applied

/-- C8: for both dialects, store construction against a database whose
recorded migration history contains entries absent from the current binary's
migration list succeeds: the unknown entries are kept as satisfied, never
re-applied and never an error, and only the genuinely new migrations run. -/
theorem migration_forward_compat (migs applied : List Nat)
    (h : ∃ v ∈ applied, v ∉ migs) :
    StateStore.new (postgres_get_migrator migs) applied
        = Except.ok (applied ++ migs.filter (fun v => !applied.contains v))
    ∧ StateStore.new (sqlite_get_migrator migs) applied
        = Except.ok (applied ++ migs.filter (fun v => !applied.contains v)) := by
  rcases h with ⟨v, hv, hvm⟩
  constructor <;>
    simp [StateStore.new, Migrator.run, postgres_get_migrator,
      sqlite_get_migrator]

/-- Witness for C8: history [1, 5] with current list [1, 2]; entry 5 is
unknown yet construction succeeds and applies only migration 2. -/
theorem migration_forward_compat_witness :
    StateStore.new (postgres_get_migrator [1, 2]) [1, 5]
      = Except.ok [1, 5, 2] :=
  (migration_forward_compat [1, 2] [1, 5] ⟨5, by decide, by decide⟩).1

end MatrixSdkSql
